import Mathlib

/-!
Verification of the comment/whitespace preprocessor, the DFA lexer and the
LL(1) table-driven parser of the `comp` module (`comp/lexer.rs`,
`comp/parser.rs`).  Rust types and functions are embedded shallowly: `Vec`
becomes `List`, `HashMap` becomes an association list, `Result` becomes
`Except`, `usize` becomes `Nat` (no arithmetic here can overflow in practice:
row/column counters only increment), and the unbounded parser driver loop is
run on explicit fuel (theorem `parse_total` shows the chosen fuel is never
exhausted with the hand-built table).
-/

namespace Comp

/-- Mirrors `struct PositionedChar` of `comp/lexer.rs`. -/
structure PositionedChar where
  c : Char
  row : Nat
  col : Nat
deriving DecidableEq, Repr

/-- Mirrors `enum PreprocessError` of `comp/lexer.rs`. -/
inductive PreprocessError where
  | InvalidChar (c : Char) (row col : Nat)
  | EofWhileBlockComment (row col : Nat)
  | NestedBlockComment (row col : Nat)
deriving DecidableEq, Repr

/-- Mirrors `enum CommentState` of `comp/lexer.rs`. -/
inductive CommentState where
  | None
  | EnteringInlineOrBlock (slash : PositionedChar)
  | Inline
  | Block
  | LeavingBlock
deriving DecidableEq, Repr

/-- The mutable local state of the `preprocess` loop in `comp/lexer.rs`:
`preprocessed`, `row`, `col`, `spaced`, `comment_state`. -/
structure PreSt where
  out : List PositionedChar
  row : Nat
  col : Nat
  spaced : Bool
  comment : CommentState
deriving DecidableEq, Repr

/-- The `if !spaced { preprocessed.push(' ' at r:c); spaced = true }` pattern
of `preprocess`. -/
def pushSpaced (st : PreSt) (r c : Nat) : PreSt :=
  if st.spaced then st
  else { st with out := st.out ++ [⟨' ', r, c⟩], spaced := true }

/-- The trailing whitespace-coalescing `match c` of `preprocess`
(`comp/lexer.rs` lines 132-153), reached by fall-through from the comment
state machine. -/
def emitChar (st : PreSt) (c : Char) : PreSt :=
  if c = '\n' then
    { (pushSpaced st st.row st.col) with row := st.row + 1, col := 1 }
  else if c = ' ' then
    { (pushSpaced st st.row st.col) with col := st.col + 1 }
  else
    { st with out := st.out ++ [⟨c, st.row, st.col⟩], spaced := false,
              col := st.col + 1 }

/-- One iteration of the `for c in source.chars()` loop of `preprocess`. -/
def prestep (st : PreSt) (c : Char) : PreSt :=
  match st.comment with
  | CommentState.None =>
      if c = '/' then
        { st with comment := CommentState.EnteringInlineOrBlock ⟨c, st.row, st.col⟩,
                  col := st.col + 1 }
      else emitChar st c
  | CommentState.EnteringInlineOrBlock slash =>
      if c = '/' then
        { pushSpaced st slash.row slash.col with
            comment := CommentState.Inline,
            col := st.col + 1 }
      else if c = '*' then
        { pushSpaced st slash.row slash.col with
            comment := CommentState.Block,
            col := st.col + 1 }
      else
        emitChar { st with comment := CommentState.None,
                           out := st.out ++ [slash], spaced := false } c
  | CommentState.Inline =>
      if c = '\n' then { st with comment := CommentState.None, row := st.row + 1, col := 1 }
      else st
  | CommentState.Block =>
      if c = '*' then { st with comment := CommentState.LeavingBlock, col := st.col + 1 }
      else if c = '\n' then { st with row := st.row + 1, col := 1 }
      else { st with col := st.col + 1 }
  | CommentState.LeavingBlock =>
      if c = '/' then { st with comment := CommentState.None, col := st.col + 1 }
      else if c = '\n' then { st with comment := CommentState.Block, row := st.row + 1, col := 1 }
      else { st with comment := CommentState.Block, col := st.col + 1 }

/-- Initial state of the `preprocess` loop. -/
def initPre : PreSt := ⟨[], 1, 1, true, CommentState.None⟩

/-- The code after the loop of `preprocess` (`comp/lexer.rs` lines 155-161):
error on EOF in state `Block`, otherwise pop a trailing space and return. -/
def finalizePre (st : PreSt) : Except PreprocessError (List PositionedChar) :=
  if st.comment = CommentState.Block then
    Except.error (PreprocessError.EofWhileBlockComment st.row st.col)
  else
    Except.ok (match st.out.getLast? with
      | some pc => if pc.c = ' ' then st.out.dropLast else st.out
      | none => st.out)

/-- `preprocess` on a list of characters. -/
def preprocessChars (source : List Char) : Except PreprocessError (List PositionedChar) :=
  finalizePre (source.foldl prestep initPre)

/-- Mirrors `pub fn preprocess(source: String)` of `comp/lexer.rs`. -/
def preprocess (source : String) : Except PreprocessError (List PositionedChar) :=
  preprocessChars source.data

/-- The comment state the preprocessor is in when end-of-input is reached. -/
def commentStateAfter (source : String) : CommentState :=
  (source.data.foldl prestep initPre).comment

/-! Predicates used to state the whitespace-coalescing and idempotence
properties of `preprocess`. -/

/-- Every adjacent pair of the list satisfies `p`. -/
def pairsOK (p : α → α → Bool) : List α → Bool
  | [] => true
  | [_] => true
  | a :: b :: rest => p a b && pairsOK p (b :: rest)

/-- The head, if any, satisfies `p`. -/
def headP (p : α → Bool) (l : List α) : Bool := l.head?.all p

/-- The last element, if any, satisfies `p`. -/
def lastP (p : α → Bool) (l : List α) : Bool := l.getLast?.all p

/-- Not two adjacent space characters. -/
def spaceRel (a b : Char) : Bool := !(a == ' ' && b == ' ')

/-- Not a comment-opening two-character sequence. -/
def openRel (a b : Char) : Bool := !(a == '/' && (b == '/' || b == '*'))

def notSpace (c : Char) : Bool := c != ' '

def notSlash (c : Char) : Bool := c != '/'

def notNl (c : Char) : Bool := c != '\n'

/-- Invariant maintained by every iteration of the `preprocess` loop,
relating the emitted output to the `spaced` flag: no two adjacent spaces,
no leading space, `spaced = false` exactly records that something has been
emitted and the last emitted character is not a space; moreover no newline
and no comment-opening pair is ever emitted, and at iteration boundaries
the output never ends with a slash (a buffered slash is only ever emitted
together with the character that follows it). -/
def OutInv (out : List PositionedChar) (spaced : Bool) : Prop :=
  pairsOK (fun a b => spaceRel a.c b.c) out = true ∧
  headP (fun x => notSpace x.c) out = true ∧
  (spaced = false → out ≠ [] ∧ lastP (fun x => notSpace x.c) out = true) ∧
  out.all (fun x => notNl x.c) = true ∧
  pairsOK (fun a b => openRel a.c b.c) out = true ∧
  lastP (fun x => notSlash x.c) out = true

/-- Remove a trailing slash character, if present. -/
def dropTrailSlash (l : List Char) : List Char :=
  if l.getLast? = some '/' then l.dropLast else l

/-- The slash buffered by `EnteringInlineOrBlock` is always an actual slash
character (it is only ever built from the `/` just read). -/
def slashInv : CommentState → Prop
  | CommentState.EnteringInlineOrBlock p => p.c = '/'
  | _ => True

/-- Full loop invariant of `preprocess`. -/
def PreInv (st : PreSt) : Prop := OutInv st.out st.spaced ∧ slashInv st.comment

deriving instance DecidableEq for Except

/-- Mirrors `enum Sym` of `comp/lexer.rs`. -/
inductive Sym where
  | LeftParen
  | RightParen
  | LeftBracket
  | RightBracket
  | LeftBrace
  | RightBrace
  | Comma
  | Semicolon
deriving DecidableEq, Repr

/-- Mirrors `enum Kw` of `comp/lexer.rs`. -/
inductive Kw where
  | If
  | Int
  | For
  | While
  | Do
  | Return
  | Break
  | Continue
deriving DecidableEq, Repr

/-- Mirrors `enum Op` of `comp/lexer.rs`. -/
inductive Op where
  | Add
  | Sub
  | Mul
  | Div
  | Mod
  | Assign
  | Gt
  | Lt
  | Ge
  | Le
  | Eq
  | Ne
  | Not
deriving DecidableEq, Repr

/-- Mirrors `enum TokenValue` of `comp/lexer.rs`; the payload structs
`Ident { name }` and `LiteralInt { value }` are flattened into the
constructor arguments. -/
inductive TokenValue where
  | Ident (name : String)
  | Sym (sym : Sym)
  | Kw (kw : Kw)
  | Op (op : Op)
  | LiteralInt (value : String)
deriving DecidableEq, Repr

/-- Mirrors `struct Token` of `comp/lexer.rs`. -/
structure Token where
  token : TokenValue
  row : Nat
  col : Nat
  raw : String
deriving DecidableEq, Repr

/-- Mirrors `enum LexError` of `comp/lexer.rs`. -/
inductive LexError where
  | UnexpectedChar (c : Char) (row col : Nat)
  | UnexpectedEof (row col : Nat)
deriving DecidableEq, Repr

/-- Mirrors `enum AutomataState` of `comp/lexer.rs`. -/
inductive AutomataState where
  | Start
  | Ident_
  | IdentOrKwIfOrInt1
  | IdentOrKwIf2
  | IdentOrKwInt2
  | IdentOrKwInt3
  | IdentOrKwFor1
  | IdentOrKwFor2
  | IdentOrKwFor3
  | IdentOrKwWhile1
  | IdentOrKwWhile2
  | IdentOrKwWhile3
  | IdentOrKwWhile4
  | IdentOrKwWhile5
  | IdentOrKwDo1
  | IdentOrKwDo2
  | IdentOrKwReturn1
  | IdentOrKwReturn2
  | IdentOrKwReturn3
  | IdentOrKwReturn4
  | IdentOrKwReturn5
  | IdentOrKwReturn6
  | IdentOrKwBreak1
  | IdentOrKwBreak2
  | IdentOrKwBreak3
  | IdentOrKwBreak4
  | IdentOrKwBreak5
  | IdentOrKwContinue1
  | IdentOrKwContinue2
  | IdentOrKwContinue3
  | IdentOrKwContinue4
  | IdentOrKwContinue5
  | IdentOrKwContinue6
  | IdentOrKwContinue7
  | IdentOrKwContinue8
  | OpAssignOrEq
  | OpGtOrGe
  | OpLtOrLe
  | OpNotOrNe
  | LiteralInt
  | LiteralZero
deriving DecidableEq, Repr

/-- The Rust pattern `'_' | 'a'..='z' | 'A'..='Z'`. -/
def isIdentStartChar (c : Char) : Bool :=
  c == '_' || c.isAlpha

/-- The Rust pattern `'_' | 'a'..='z' | 'A'..='Z' | '0'..='9'`. -/
def isIdentChar (c : Char) : Bool :=
  c == '_' || c.isAlpha || c.isDigit

/-- Keyword-prefix dispatch of the `Start` state of `lex`
(`comp/lexer.rs` lines 467-476). -/
def identOrKwState (c : Char) : AutomataState :=
  match c with
  | 'i' => AutomataState.IdentOrKwIfOrInt1
  | 'f' => AutomataState.IdentOrKwFor1
  | 'w' => AutomataState.IdentOrKwWhile1
  | 'd' => AutomataState.IdentOrKwDo1
  | 'r' => AutomataState.IdentOrKwReturn1
  | 'b' => AutomataState.IdentOrKwBreak1
  | 'c' => AutomataState.IdentOrKwContinue1
  | _ => AutomataState.Ident_

/-- The single-character symbol/operator tokens handled directly in the
`Start` state of `lex` (`comp/lexer.rs` lines 477-561). -/
def singleCharToken (c : Char) : Option TokenValue :=
  match c with
  | '(' => some (TokenValue.Sym Sym.LeftParen)
  | ')' => some (TokenValue.Sym Sym.RightParen)
  | '[' => some (TokenValue.Sym Sym.LeftBracket)
  | ']' => some (TokenValue.Sym Sym.RightBracket)
  | '\x7b' => some (TokenValue.Sym Sym.LeftBrace)
  | '\x7d' => some (TokenValue.Sym Sym.RightBrace)
  | ',' => some (TokenValue.Sym Sym.Comma)
  | ';' => some (TokenValue.Sym Sym.Semicolon)
  | '+' => some (TokenValue.Op Op.Add)
  | '-' => some (TokenValue.Op Op.Sub)
  | '*' => some (TokenValue.Op Op.Mul)
  | '/' => some (TokenValue.Op Op.Div)
  | '%' => some (TokenValue.Op Op.Mod)
  | _ => none

/-- The result of one full iteration of the `lex` loop: tokens pushed during
the iteration, then the new `state`, `current_token_row`, `current_token_col`
and `current_token_raw`. -/
abbrev LexStepResult := List Token × AutomataState × Nat × Nat × String

/-- Processing one character in the `Start` state of `lex`
(`comp/lexer.rs` lines 457-572). -/
def startLex (row col : Nat) (raw : String) (pc : PositionedChar) :
    Except LexError LexStepResult :=
  if pc.c == ' ' then Except.ok ([], AutomataState.Start, row, col, raw)
  else
    let row := pc.row
    let col := pc.col
    let raw := pc.c.toString
    if pc.c == '0' then Except.ok ([], AutomataState.LiteralZero, row, col, raw)
    else if pc.c.isDigit then Except.ok ([], AutomataState.LiteralInt, row, col, raw)
    else if isIdentStartChar pc.c then
      Except.ok ([], identOrKwState pc.c, row, col, raw)
    else match singleCharToken pc.c with
    | some tv => Except.ok ([⟨tv, row, col, raw⟩], AutomataState.Start, row, col, raw)
    | none =>
      if pc.c == '=' then Except.ok ([], AutomataState.OpAssignOrEq, row, col, raw)
      else if pc.c == '>' then Except.ok ([], AutomataState.OpGtOrGe, row, col, raw)
      else if pc.c == '<' then Except.ok ([], AutomataState.OpLtOrLe, row, col, raw)
      else if pc.c == '!' then Except.ok ([], AutomataState.OpNotOrNe, row, col, raw)
      else Except.error (LexError.UnexpectedChar pc.c pc.row pc.col)

/-- The shared shape of all `IdentOrKw...` states and `Ident_`
(`comp/lexer.rs` lines 573-1272): if the character continues one of the
expected keyword spellings, move along the chain; any other identifier
character falls back to the generic `Ident_` state; everything else
finalizes the token for this state (`mk` applied to the accumulated raw
text) and re-processes the character from `Start` (the `keep_char` flag). -/
def stepKw (row col : Nat) (raw : String) (pc : PositionedChar)
    (steps : List (Char × AutomataState)) (mk : String → TokenValue) :
    Except LexError LexStepResult :=
  match steps.find? (fun p => p.1 == pc.c) with
  | some p => Except.ok ([], p.2, row, col, raw.push pc.c)
  | none =>
    if isIdentChar pc.c then Except.ok ([], AutomataState.Ident_, row, col, raw.push pc.c)
    else
      match startLex row col raw pc with
      | Except.ok (ts, s, r, co, rw) => Except.ok (⟨mk raw, row, col, raw⟩ :: ts, s, r, co, rw)
      | Except.error e => Except.error e

/-- The shared shape of the four `Op...Or...` states
(`comp/lexer.rs` lines 1273-1360): `=` completes the two-character operator,
anything else finalizes the one-character operator and re-processes the
character from `Start`. -/
def stepOpEq (row col : Nat) (raw : String) (pc : PositionedChar)
    (two one : TokenValue) : Except LexError LexStepResult :=
  if pc.c == '=' then
    Except.ok ([⟨two, row, col, raw.push '='⟩], AutomataState.Start, row, col, raw.push '=')
  else
    match startLex row col raw pc with
    | Except.ok (ts, s, r, co, rw) => Except.ok (⟨one, row, col, raw⟩ :: ts, s, r, co, rw)
    | Except.error e => Except.error e

/-- One iteration of the `lex` loop on character `pc` in state `state`
(`comp/lexer.rs` lines 456-1403).  Iterations that set `keep_char` finalize
the current token and immediately re-process `pc` from `Start` (which never
sets `keep_char` again), so every iteration of this function consumes
exactly one character. -/
def lexStep (state : AutomataState) (row col : Nat) (raw : String)
    (pc : PositionedChar) : Except LexError LexStepResult :=
  match state with
  | AutomataState.Start => startLex row col raw pc
  | AutomataState.Ident_ => stepKw row col raw pc [] TokenValue.Ident
  | AutomataState.IdentOrKwIfOrInt1 =>
      stepKw row col raw pc
        [('f', AutomataState.IdentOrKwIf2), ('n', AutomataState.IdentOrKwInt2)]
        TokenValue.Ident
  | AutomataState.IdentOrKwIf2 =>
      stepKw row col raw pc [] (fun _ => TokenValue.Kw Kw.If)
  | AutomataState.IdentOrKwInt2 =>
      stepKw row col raw pc [('t', AutomataState.IdentOrKwInt3)] TokenValue.Ident
  | AutomataState.IdentOrKwInt3 =>
      stepKw row col raw pc [] (fun _ => TokenValue.Kw Kw.Int)
  | AutomataState.IdentOrKwFor1 =>
      stepKw row col raw pc [('o', AutomataState.IdentOrKwFor2)] TokenValue.Ident
  | AutomataState.IdentOrKwFor2 =>
      stepKw row col raw pc [('r', AutomataState.IdentOrKwFor3)] TokenValue.Ident
  | AutomataState.IdentOrKwFor3 =>
      stepKw row col raw pc [] (fun _ => TokenValue.Kw Kw.For)
  | AutomataState.IdentOrKwWhile1 =>
      stepKw row col raw pc [('h', AutomataState.IdentOrKwWhile2)] TokenValue.Ident
  | AutomataState.IdentOrKwWhile2 =>
      stepKw row col raw pc [('i', AutomataState.IdentOrKwWhile3)] TokenValue.Ident
  | AutomataState.IdentOrKwWhile3 =>
      stepKw row col raw pc [('l', AutomataState.IdentOrKwWhile4)] TokenValue.Ident
  | AutomataState.IdentOrKwWhile4 =>
      stepKw row col raw pc [('e', AutomataState.IdentOrKwWhile5)] TokenValue.Ident
  | AutomataState.IdentOrKwWhile5 =>
      stepKw row col raw pc [] (fun _ => TokenValue.Kw Kw.While)
  | AutomataState.IdentOrKwDo1 =>
      stepKw row col raw pc [('o', AutomataState.IdentOrKwDo2)] TokenValue.Ident
  | AutomataState.IdentOrKwDo2 =>
      stepKw row col raw pc [] (fun _ => TokenValue.Kw Kw.Do)
  | AutomataState.IdentOrKwReturn1 =>
      stepKw row col raw pc [('e', AutomataState.IdentOrKwReturn2)] TokenValue.Ident
  | AutomataState.IdentOrKwReturn2 =>
      stepKw row col raw pc [('t', AutomataState.IdentOrKwReturn3)] TokenValue.Ident
  | AutomataState.IdentOrKwReturn3 =>
      stepKw row col raw pc [('u', AutomataState.IdentOrKwReturn4)] TokenValue.Ident
  | AutomataState.IdentOrKwReturn4 =>
      stepKw row col raw pc [('r', AutomataState.IdentOrKwReturn5)] TokenValue.Ident
  | AutomataState.IdentOrKwReturn5 =>
      stepKw row col raw pc [('n', AutomataState.IdentOrKwReturn6)] TokenValue.Ident
  | AutomataState.IdentOrKwReturn6 =>
      stepKw row col raw pc [] (fun _ => TokenValue.Kw Kw.Return)
  | AutomataState.IdentOrKwBreak1 =>
      stepKw row col raw pc [('r', AutomataState.IdentOrKwBreak2)] TokenValue.Ident
  | AutomataState.IdentOrKwBreak2 =>
      stepKw row col raw pc [('e', AutomataState.IdentOrKwBreak3)] TokenValue.Ident
  | AutomataState.IdentOrKwBreak3 =>
      stepKw row col raw pc [('a', AutomataState.IdentOrKwBreak4)] TokenValue.Ident
  | AutomataState.IdentOrKwBreak4 =>
      stepKw row col raw pc [('k', AutomataState.IdentOrKwBreak5)] TokenValue.Ident
  | AutomataState.IdentOrKwBreak5 =>
      stepKw row col raw pc [] (fun _ => TokenValue.Kw Kw.Break)
  | AutomataState.IdentOrKwContinue1 =>
      stepKw row col raw pc [('o', AutomataState.IdentOrKwContinue2)] TokenValue.Ident
  | AutomataState.IdentOrKwContinue2 =>
      stepKw row col raw pc [('n', AutomataState.IdentOrKwContinue3)] TokenValue.Ident
  | AutomataState.IdentOrKwContinue3 =>
      stepKw row col raw pc [('t', AutomataState.IdentOrKwContinue4)] TokenValue.Ident
  | AutomataState.IdentOrKwContinue4 =>
      stepKw row col raw pc [('i', AutomataState.IdentOrKwContinue5)] TokenValue.Ident
  | AutomataState.IdentOrKwContinue5 =>
      stepKw row col raw pc [('n', AutomataState.IdentOrKwContinue6)] TokenValue.Ident
  | AutomataState.IdentOrKwContinue6 =>
      stepKw row col raw pc [('u', AutomataState.IdentOrKwContinue7)] TokenValue.Ident
  | AutomataState.IdentOrKwContinue7 =>
      stepKw row col raw pc [('e', AutomataState.IdentOrKwContinue8)] TokenValue.Ident
  | AutomataState.IdentOrKwContinue8 =>
      stepKw row col raw pc [] (fun _ => TokenValue.Kw Kw.Continue)
  | AutomataState.OpAssignOrEq =>
      stepOpEq row col raw pc (TokenValue.Op Op.Eq) (TokenValue.Op Op.Assign)
  | AutomataState.OpGtOrGe =>
      stepOpEq row col raw pc (TokenValue.Op Op.Ge) (TokenValue.Op Op.Gt)
  | AutomataState.OpLtOrLe =>
      stepOpEq row col raw pc (TokenValue.Op Op.Le) (TokenValue.Op Op.Lt)
  | AutomataState.OpNotOrNe =>
      stepOpEq row col raw pc (TokenValue.Op Op.Ne) (TokenValue.Op Op.Not)
  | AutomataState.LiteralInt =>
      if pc.c.isDigit then
        Except.ok ([], AutomataState.LiteralInt, row, col, raw.push pc.c)
      else if isIdentStartChar pc.c then
        Except.error (LexError.UnexpectedChar pc.c pc.row pc.col)
      else
        match startLex row col raw pc with
        | Except.ok (ts, s, r, co, rw) =>
            Except.ok (⟨TokenValue.LiteralInt raw, row, col, raw⟩ :: ts, s, r, co, rw)
        | Except.error e => Except.error e
  | AutomataState.LiteralZero =>
      if isIdentChar pc.c then
        Except.error (LexError.UnexpectedChar pc.c pc.row pc.col)
      else
        match startLex row col raw pc with
        | Except.ok (ts, s, r, co, rw) =>
            Except.ok (⟨TokenValue.LiteralInt "0", row, col, raw⟩ :: ts, s, r, co, rw)
        | Except.error e => Except.error e

/-- The `// handle EOF` finalization table of `lex`
(`comp/lexer.rs` lines 1405-1704). -/
def eofTokens (state : AutomataState) (row col : Nat) (raw : String) : List Token :=
  match state with
  | AutomataState.Start => []
  | AutomataState.Ident_
  | AutomataState.IdentOrKwIfOrInt1
  | AutomataState.IdentOrKwInt2
  | AutomataState.IdentOrKwFor1
  | AutomataState.IdentOrKwFor2
  | AutomataState.IdentOrKwWhile1
  | AutomataState.IdentOrKwWhile2
  | AutomataState.IdentOrKwWhile3
  | AutomataState.IdentOrKwWhile4
  | AutomataState.IdentOrKwDo1
  | AutomataState.IdentOrKwReturn1
  | AutomataState.IdentOrKwReturn2
  | AutomataState.IdentOrKwReturn3
  | AutomataState.IdentOrKwReturn4
  | AutomataState.IdentOrKwReturn5
  | AutomataState.IdentOrKwBreak1
  | AutomataState.IdentOrKwBreak2
  | AutomataState.IdentOrKwBreak3
  | AutomataState.IdentOrKwBreak4
  | AutomataState.IdentOrKwContinue1
  | AutomataState.IdentOrKwContinue2
  | AutomataState.IdentOrKwContinue3
  | AutomataState.IdentOrKwContinue4
  | AutomataState.IdentOrKwContinue5
  | AutomataState.IdentOrKwContinue6
  | AutomataState.IdentOrKwContinue7 => [⟨TokenValue.Ident raw, row, col, raw⟩]
  | AutomataState.IdentOrKwIf2 => [⟨TokenValue.Kw Kw.If, row, col, raw⟩]
  | AutomataState.IdentOrKwInt3 => [⟨TokenValue.Kw Kw.Int, row, col, raw⟩]
  | AutomataState.IdentOrKwFor3 => [⟨TokenValue.Kw Kw.For, row, col, raw⟩]
  | AutomataState.IdentOrKwWhile5 => [⟨TokenValue.Kw Kw.While, row, col, raw⟩]
  | AutomataState.IdentOrKwDo2 => [⟨TokenValue.Kw Kw.Do, row, col, raw⟩]
  | AutomataState.IdentOrKwReturn6 => [⟨TokenValue.Kw Kw.Return, row, col, raw⟩]
  | AutomataState.IdentOrKwBreak5 => [⟨TokenValue.Kw Kw.Break, row, col, raw⟩]
  | AutomataState.IdentOrKwContinue8 => [⟨TokenValue.Kw Kw.Continue, row, col, raw⟩]
  | AutomataState.OpAssignOrEq => [⟨TokenValue.Op Op.Assign, row, col, raw⟩]
  | AutomataState.OpGtOrGe => [⟨TokenValue.Op Op.Gt, row, col, raw⟩]
  | AutomataState.OpLtOrLe => [⟨TokenValue.Op Op.Lt, row, col, raw⟩]
  | AutomataState.OpNotOrNe => [⟨TokenValue.Op Op.Not, row, col, raw⟩]
  | AutomataState.LiteralInt => [⟨TokenValue.LiteralInt raw, row, col, raw⟩]
  | AutomataState.LiteralZero => [⟨TokenValue.LiteralInt "0", row, col, raw⟩]

/-- The main loop of `lex`, one character per call. -/
def lexLoop : List PositionedChar → AutomataState → Nat → Nat → String →
    Except LexError (List Token)
  | [], state, row, col, raw => Except.ok (eofTokens state row col raw)
  | pc :: rest, state, row, col, raw =>
      match lexStep state row col raw pc with
      | Except.ok (ts, s, r, co, rw) =>
          match lexLoop rest s r co rw with
          | Except.ok more => Except.ok (ts ++ more)
          | Except.error e => Except.error e
      | Except.error e => Except.error e

/-- Mirrors `pub fn lex(preprocessed: Vec<PositionedChar>)` of
`comp/lexer.rs`: row, column and raw text start as `0`, `0`, `""`. -/
def lex (preprocessed : List PositionedChar) : Except LexError (List Token) :=
  lexLoop preprocessed AutomataState.Start 0 0 ""

/-- Mirrors `enum Terminal` of `comp/parser.rs`. -/
inductive Terminal where
  | Ident
  | Sym (sym : Sym)
  | Op (op : Op)
  | LiteralInt
  | Eos
deriving DecidableEq, Repr

/-- Mirrors `impl TryFrom<Token> for Terminal` of `comp/parser.rs`
(`Ok` becomes `some`, `Err` becomes `none`; the Rust error payload is the
unchanged input token). -/
def tokenToTerminal (value : Token) : Option Terminal :=
  match value.token with
  | TokenValue.Ident _ => some Terminal.Ident
  | TokenValue.Sym Sym.LeftParen => some (Terminal.Sym Sym.LeftParen)
  | TokenValue.Sym Sym.RightParen => some (Terminal.Sym Sym.RightParen)
  | TokenValue.Op Op.Add => some (Terminal.Op Op.Add)
  | TokenValue.Op Op.Mul => some (Terminal.Op Op.Mul)
  | TokenValue.LiteralInt _ => some Terminal.LiteralInt
  | _ => none

/-- Mirrors `struct Nonterminal` of `comp/parser.rs`. -/
structure Nonterminal where
  name : String
deriving DecidableEq, Repr

/-- Mirrors `enum Term` of `comp/parser.rs`. -/
inductive Term where
  | Terminal (t : Terminal)
  | Nonterminal (nt : Nonterminal)
deriving DecidableEq, Repr

/-- Mirrors `struct LL1Rule` of `comp/parser.rs`. -/
structure LL1Rule where
  lhs : Nonterminal
  rhs : List Term
deriving DecidableEq, Repr

/-- Mirrors `struct LL1ParseTable` of `comp/parser.rs`; the `HashMap` of the
Rust code becomes an association list with exact-key lookup (all keys of the
hand-built table are distinct, so lookup order is irrelevant). -/
structure LL1ParseTable where
  start : Nonterminal
  rules : List LL1Rule
  table : List ((Nonterminal × Terminal) × Nat)
deriving DecidableEq, Repr

/-- `HashMap::get` on the association-list model of the table. -/
def lookupTable (tbl : List ((Nonterminal × Terminal) × Nat))
    (k : Nonterminal × Terminal) : Option Nat :=
  match tbl with
  | [] => none
  | (k2, v) :: rest => if k2 = k then some v else lookupTable rest k

/-- Mirrors `impl Default for LL1ParseTable` of `comp/parser.rs`: the fixed
9-rule expression grammar and its hand-built LL(1) table. -/
def LL1ParseTable.default : LL1ParseTable :=
  { start := ⟨"E"⟩
    rules := [
      -- (0)  E  ::= T E'
      ⟨⟨"E"⟩, [Term.Nonterminal ⟨"T"⟩, Term.Nonterminal ⟨"E^\\prime"⟩]⟩,
      -- (1)  E' ::= + T E'
      ⟨⟨"E^\\prime"⟩, [Term.Terminal (Terminal.Op Op.Add), Term.Nonterminal ⟨"T"⟩,
        Term.Nonterminal ⟨"E^\\prime"⟩]⟩,
      -- (2)  E' ::= epsilon
      ⟨⟨"E^\\prime"⟩, []⟩,
      -- (3)  T  ::= F T'
      ⟨⟨"T"⟩, [Term.Nonterminal ⟨"F"⟩, Term.Nonterminal ⟨"T^\\prime"⟩]⟩,
      -- (4)  T' ::= * F T'
      ⟨⟨"T^\\prime"⟩, [Term.Terminal (Terminal.Op Op.Mul), Term.Nonterminal ⟨"F"⟩,
        Term.Nonterminal ⟨"T^\\prime"⟩]⟩,
      -- (5)  T' ::= epsilon
      ⟨⟨"T^\\prime"⟩, []⟩,
      -- (6)  F  ::= ( E )
      ⟨⟨"F"⟩, [Term.Terminal (Terminal.Sym Sym.LeftParen), Term.Nonterminal ⟨"E"⟩,
        Term.Terminal (Terminal.Sym Sym.RightParen)]⟩,
      -- (7)  F  ::= Ident
      ⟨⟨"F"⟩, [Term.Terminal Terminal.Ident]⟩,
      -- (8)  F  ::= LiteralInt
      ⟨⟨"F"⟩, [Term.Terminal Terminal.LiteralInt]⟩]
    table := [
      ((⟨"E"⟩, Terminal.Sym Sym.LeftParen), 0),
      ((⟨"E"⟩, Terminal.Ident), 0),
      ((⟨"E"⟩, Terminal.LiteralInt), 0),
      ((⟨"E^\\prime"⟩, Terminal.Op Op.Add), 1),
      ((⟨"E^\\prime"⟩, Terminal.Sym Sym.RightParen), 2),
      ((⟨"E^\\prime"⟩, Terminal.Eos), 2),
      ((⟨"T"⟩, Terminal.Sym Sym.LeftParen), 3),
      ((⟨"T"⟩, Terminal.Ident), 3),
      ((⟨"T"⟩, Terminal.LiteralInt), 3),
      ((⟨"T^\\prime"⟩, Terminal.Op Op.Add), 5),
      ((⟨"T^\\prime"⟩, Terminal.Op Op.Mul), 4),
      ((⟨"T^\\prime"⟩, Terminal.Sym Sym.RightParen), 5),
      ((⟨"T^\\prime"⟩, Terminal.Eos), 5),
      ((⟨"F"⟩, Terminal.Sym Sym.LeftParen), 6),
      ((⟨"F"⟩, Terminal.Ident), 7),
      ((⟨"F"⟩, Terminal.LiteralInt), 8)] }

/-- Mirrors `enum ParseTraceRowRule` of `comp/parser.rs`. -/
inductive ParseTraceRowRule where
  | Rule (index : Nat)
  | None
  | Err
deriving DecidableEq, Repr

/-- Mirrors `struct ParseTraceRow` of `comp/parser.rs`.  `stack` is stored
bottom-to-top and `input` is stored reversed (next token last), exactly like
the `Vec`s cloned into trace rows by the Rust code. -/
structure ParseTraceRow where
  stack : List Term
  input : List Token
  rule : ParseTraceRowRule
deriving DecidableEq, Repr

/-- Mirrors `enum ParseError` of `comp/parser.rs`. -/
inductive ParseError where
  | InvalidToken (token : Token)
  | UnexpectedToken (token : Token)
  | ExtraToken (token : Token)
  | UnexpectedEos
deriving DecidableEq, Repr

/-- The narrowing pass at the top of `parse` (`comp/parser.rs` lines
541-549): the reversed input is mapped through the `Token`-to-`Terminal`
conversion, stopping at the first failure (which, the input having been
reversed, is the rightmost invalid token of the original stream).  The
result is re-reversed so that the head of the returned list is the first
token, matching the head-is-top convention used by `parseLoop` below. -/
def narrowOne (tok : Token) : Except Token (Token × Terminal) :=
  match tokenToTerminal tok with
  | some t => Except.ok (tok, t)
  | none => Except.error tok

/-- The reversed-then-collected narrowing, re-reversed to head-is-first. -/
def narrowTokens (input : List Token) :
    Except Token (List (Token × Terminal)) :=
  match input.reverse.mapM narrowOne with
  | Except.error tok => Except.error tok
  | Except.ok l => Except.ok l.reverse

/-- One trace row as the Rust code records it: `stack` is our head-is-top
list re-reversed to bottom-to-top order, `input` is the remaining tokens in
the reversed order the Rust `Vec` holds them. -/
def mkRow (stack : List Term) (input : List (Token × Terminal))
    (rule : ParseTraceRowRule) : ParseTraceRow :=
  ⟨stack.reverse, (input.map Prod.fst).reverse, rule⟩

/-- The `while !(stack.is_empty() && input.is_empty())` loop of `parse`
(`comp/parser.rs` lines 550-659), with the stack and the remaining input
kept head-is-top/head-is-next.  The loop in the Rust code has no fuel; here
each recursive call consumes one unit of fuel and `none` means the fuel ran
out or one of the two panicking operations (`rules[index]` out of bounds,
`assert_eq!(nonterminal, &rule.lhs)`) fired.  Theorem `parse_total` below
shows that with the hand-built table neither ever happens for the fuel
chosen in `parse`. -/
def parseLoop (pt : LL1ParseTable) :
    Nat → List Term → List (Token × Terminal) → List ParseTraceRow →
    Option (List ParseTraceRow × Except ParseError Unit)
  | 0, _, _, _ => none
  | _ + 1, [], [], trace =>
      some (trace ++ [mkRow [] [] ParseTraceRowRule.None], Except.ok ())
  | _ + 1, [], (tok, tt) :: input, trace =>
      some (trace ++ [mkRow [] ((tok, tt) :: input) ParseTraceRowRule.Err],
        Except.error (ParseError.ExtraToken tok))
  | fuel + 1, Term.Terminal terminal :: stack, (tok, tt) :: input, trace =>
      if terminal = tt then
        parseLoop pt fuel stack input
          (trace ++ [mkRow (Term.Terminal terminal :: stack) ((tok, tt) :: input)
            ParseTraceRowRule.None])
      else
        some (trace ++ [mkRow (Term.Terminal terminal :: stack) ((tok, tt) :: input)
            ParseTraceRowRule.Err],
          Except.error (ParseError.UnexpectedToken tok))
  | _ + 1, Term.Terminal terminal :: stack, [], trace =>
      some (trace ++ [mkRow (Term.Terminal terminal :: stack) [] ParseTraceRowRule.Err],
        Except.error ParseError.UnexpectedEos)
  | fuel + 1, Term.Nonterminal nt :: stack, (tok, tt) :: input, trace =>
      match lookupTable pt.table (nt, tt) with
      | none =>
          some (trace ++ [mkRow (Term.Nonterminal nt :: stack) ((tok, tt) :: input)
              ParseTraceRowRule.Err],
            Except.error (ParseError.UnexpectedToken tok))
      | some index =>
          match pt.rules.get? index with
          | none => none
          | some rule =>
              if nt = rule.lhs then
                parseLoop pt fuel (rule.rhs ++ stack) ((tok, tt) :: input)
                  (trace ++ [mkRow (Term.Nonterminal nt :: stack) ((tok, tt) :: input)
                    (ParseTraceRowRule.Rule index)])
              else none
  | fuel + 1, Term.Nonterminal nt :: stack, [], trace =>
      match lookupTable pt.table (nt, Terminal.Eos) with
      | none =>
          some (trace ++ [mkRow (Term.Nonterminal nt :: stack) [] ParseTraceRowRule.Err],
            Except.error ParseError.UnexpectedEos)
      | some index =>
          match pt.rules.get? index with
          | none => none
          | some rule =>
              if nt = rule.lhs then
                parseLoop pt fuel (rule.rhs ++ stack) []
                  (trace ++ [mkRow (Term.Nonterminal nt :: stack) []
                    (ParseTraceRowRule.Rule index)])
              else none

/-- Fuel which theorem `parse_total` proves sufficient for the hand-built
table on any input. -/
def parseFuel (n : Nat) : Nat := 16 * n + 16

/-- Mirrors `fn parse(parse_table: LL1ParseTable, input: Vec<Token>)` of
`comp/parser.rs`. -/
def parse (pt : LL1ParseTable) (input : List Token) :
    Option (List ParseTraceRow × Except ParseError Unit) :=
  match narrowTokens input with
  | Except.error token => some ([], Except.error (ParseError.InvalidToken token))
  | Except.ok pairs =>
      parseLoop pt (parseFuel pairs.length) [Term.Nonterminal pt.start] pairs []

/-- The rule indices recorded in a trace, in order, skipping match rows
(`ParseTraceRowRule.None`) and error rows. -/
def ruleIndices (trace : List ParseTraceRow) : List Nat :=
  trace.filterMap (fun r =>
    match r.rule with
    | ParseTraceRowRule.Rule i => some i
    | _ => none)

/-! Termination measure for the parser driver loop, specific to the
hand-built table.  Every iteration of `parseLoop` that recurses strictly
decreases `mu`, hence the fuel `parseFuel input.length` chosen in `parse`
(which bounds the initial measure) is never exhausted. -/

/-- Weight of a nonterminal of the fixed grammar. -/
def ntWeight (nt : Nonterminal) : Nat :=
  if nt.name = "E" then 5 else if nt.name = "T" then 3 else 1

/-- Weight of a stack symbol. -/
def termWeight : Term → Nat
  | Term.Terminal _ => 1
  | Term.Nonterminal nt => ntWeight nt

/-- Total weight of a parser stack. -/
def stackWeight (l : List Term) : Nat := (l.map termWeight).sum

/-- The current lookahead terminal: the head of the remaining narrowed
input, or `Eos` when the input is exhausted. -/
def look : List (Token × Terminal) → Terminal
  | [] => Terminal.Eos
  | (_, t) :: _ => t

/-- Zero when the stack top is a terminal equal to the lookahead (so the
next iteration must consume input or stop), otherwise eight. -/
def topBit (stack : List Term) (input : List (Token × Terminal)) : Nat :=
  match stack with
  | Term.Terminal t :: _ => if t = look input then 0 else 8
  | _ => 8

/-- The termination measure of the parser loop. -/
def mu (stack : List Term) (input : List (Token × Terminal)) : Nat :=
  16 * input.length + topBit stack input + stackWeight stack

/-- Per-entry check on the parse table: the rule index is in bounds, its
left-hand side is the row key (this is what the `assert_eq!` in `parse`
checks at run time), and applying the rule decreases `mu`: either the
right-hand side weighs less than the expanded nonterminal, or it starts
with the terminal keying the column, which the next iteration must
consume. -/
def entryOK (rules : List LL1Rule) (e : (Nonterminal × Terminal) × Nat) : Bool :=
  match rules.get? e.2 with
  | none => false
  | some r =>
      r.lhs == e.1.1 &&
      (decide (stackWeight r.rhs < ntWeight e.1.1) ||
        match r.rhs with
        | Term.Terminal t :: _ => t == e.1.2 && decide (stackWeight r.rhs < 8 + ntWeight e.1.1)
        | _ => false)

/-- Per-entry check used for the lookup/left-hand-side consistency claim:
the rule index stored in the table is in bounds and the rule there has the
row key as its left-hand side. -/
def entryLhsOK (rules : List LL1Rule) (e : (Nonterminal × Terminal) × Nat) : Bool :=
  match rules.get? e.2 with
  | none => false
  | some r => r.lhs == e.1.1

/-! Golden-test evaluations mirroring `test_preprocess` and `test_lex` in
`comp/lexer.rs`. -/

example :
    preprocess "i/**/n\nt\n" =
      Except.ok [⟨'i', 1, 1⟩, ⟨' ', 1, 2⟩, ⟨'n', 1, 6⟩, ⟨' ', 1, 7⟩, ⟨'t', 2, 1⟩] := by
  decide

example :
    preprocess "i/* // */n//\nt\n" =
      Except.ok [⟨'i', 1, 1⟩, ⟨' ', 1, 2⟩, ⟨'n', 1, 10⟩, ⟨' ', 1, 11⟩, ⟨'t', 2, 1⟩] := by
  decide

example :
    preprocess "i/* */// */n//\nt\n" =
      Except.ok [⟨'i', 1, 1⟩, ⟨' ', 1, 2⟩, ⟨'t', 2, 1⟩] := by
  decide

example : preprocess "/*" = Except.error (PreprocessError.EofWhileBlockComment 1 3) := by
  decide

example :
    lex [⟨'a', 1, 1⟩, ⟨' ', 1, 2⟩, ⟨'b', 1, 6⟩] =
      Except.ok [⟨TokenValue.Ident "a", 1, 1, "a"⟩, ⟨TokenValue.Ident "b", 1, 6, "b"⟩] := by
  decide

example :
    lex [⟨'0', 1, 1⟩, ⟨'1', 1, 2⟩, ⟨'2', 1, 3⟩, ⟨'3', 1, 4⟩] =
      Except.error (LexError.UnexpectedChar '1' 1 2) := by
  decide

theorem lookupTable_mem {tbl : List ((Nonterminal × Terminal) × Nat)}
    {k : Nonterminal × Terminal} {i : Nat} (h : lookupTable tbl k = some i) :
    (k, i) ∈ tbl := by
  induction tbl with
  | nil => simp [lookupTable] at h
  | cons e rest ih =>
      obtain ⟨k2, v⟩ := e
      rw [lookupTable] at h
      by_cases hk : k2 = k
      · subst hk
        rw [if_pos rfl] at h
        injection h with h
        subst h
        exact List.mem_cons_self _ _
      · rw [if_neg hk] at h
        exact List.mem_cons_of_mem _ (ih h)

theorem entryLhsOK_spec {rules : List LL1Rule} {e : (Nonterminal × Terminal) × Nat}
    (h : entryLhsOK rules e = true) :
    ∃ r, rules.get? e.2 = some r ∧ r.lhs = e.1.1 := by
  unfold entryLhsOK at h
  cases hg : rules.get? e.2 with
  | none => rw [hg] at h; cases h
  | some r =>
      rw [hg] at h
      exact ⟨r, rfl, by simpa using h⟩

theorem default_entries_lhs_ok :
    LL1ParseTable.default.table.all (entryLhsOK LL1ParseTable.default.rules) = true := by
  decide

theorem entryOK_spec {rules : List LL1Rule} {e : (Nonterminal × Terminal) × Nat}
    (h : entryOK rules e = true) :
    ∃ r, rules.get? e.2 = some r ∧ r.lhs = e.1.1 ∧
      (stackWeight r.rhs < ntWeight e.1.1 ∨
        ∃ rest, r.rhs = Term.Terminal e.1.2 :: rest ∧
          stackWeight r.rhs < 8 + ntWeight e.1.1) := by
  unfold entryOK at h
  cases hg : rules.get? e.2 with
  | none => rw [hg] at h; cases h
  | some r =>
      rw [hg] at h
      refine ⟨r, rfl, ?_, ?_⟩
      · have := (Bool.and_eq_true _ _).mp h |>.1
        simpa using this
      · have h2 := (Bool.and_eq_true _ _).mp h |>.2
        rcases (Bool.or_eq_true _ _).mp h2 with h3 | h3
        · exact Or.inl (by simpa using h3)
        · right
          cases hrhs : r.rhs with
          | nil => rw [hrhs] at h3; cases h3
          | cons hd tl =>
              cases hd with
              | Nonterminal nt2 => rw [hrhs] at h3; cases h3
              | Terminal t =>
                  rw [hrhs] at h3
                  have := (Bool.and_eq_true _ _).mp h3
                  refine ⟨tl, ?_, ?_⟩
                  · rw [beq_iff_eq.mp this.1]
                  · simpa using this.2

theorem default_entries_ok :
    LL1ParseTable.default.table.all (entryOK LL1ParseTable.default.rules) = true := by
  decide

theorem topBit_le (stack : List Term) (input : List (Token × Terminal)) :
    topBit stack input ≤ 8 := by
  unfold topBit
  rcases stack with _ | ⟨t, rest⟩
  · simp
  · cases t with
    | Terminal t => dsimp only; split <;> omega
    | Nonterminal nt => simp

theorem stackWeight_append (a b : List Term) :
    stackWeight (a ++ b) = stackWeight a + stackWeight b := by
  simp [stackWeight]

theorem stackWeight_cons (t : Term) (l : List Term) :
    stackWeight (t :: l) = termWeight t + stackWeight l := by
  simp [stackWeight]

theorem mu_match (tt : Terminal) (stack : List Term) (tok : Token)
    (input : List (Token × Terminal)) :
    mu stack input < mu (Term.Terminal tt :: stack) ((tok, tt) :: input) := by
  have h1 := topBit_le stack input
  unfold mu
  rw [stackWeight_cons]
  have h2 : topBit (Term.Terminal tt :: stack) ((tok, tt) :: input) = 0 := by
    simp [topBit, look]
  rw [h2]
  simp only [List.length_cons, termWeight]
  omega

theorem mu_expand {nt : Nonterminal} {tt : Terminal} {r : LL1Rule}
    (stack : List Term) (input : List (Token × Terminal))
    (hl : look input = tt)
    (hcase : stackWeight r.rhs < ntWeight nt ∨
      ∃ rest, r.rhs = Term.Terminal tt :: rest ∧ stackWeight r.rhs < 8 + ntWeight nt) :
    mu (r.rhs ++ stack) input < mu (Term.Nonterminal nt :: stack) input := by
  have hold : topBit (Term.Nonterminal nt :: stack) input = 8 := by simp [topBit]
  unfold mu
  rw [hold, stackWeight_cons, stackWeight_append]
  rcases hcase with hc | ⟨rest, hrhs, hc⟩
  · have := topBit_le (r.rhs ++ stack) input
    simp only [termWeight]
    omega
  · have hbit : topBit (r.rhs ++ stack) input = 0 := by
      rw [hrhs]
      simp [topBit, hl]
    rw [hbit]
    simp only [termWeight]
    omega

theorem parseLoop_total :
    ∀ (fuel : Nat) (stack : List Term) (input : List (Token × Terminal))
      (trace : List ParseTraceRow), mu stack input < fuel →
      (parseLoop LL1ParseTable.default fuel stack input trace).isSome = true := by
  intro fuel
  induction fuel with
  | zero => intro stack input trace h; omega
  | succ fuel ih =>
      intro stack input trace h
      rcases stack with _ | ⟨top, stack⟩
      · rcases input with _ | ⟨⟨tok, tt⟩, input⟩ <;> simp [parseLoop]
      · cases top with
        | Terminal t =>
            rcases input with _ | ⟨⟨tok, tt⟩, input⟩
            · simp [parseLoop]
            · rw [parseLoop]
              by_cases he : t = tt
              · rw [if_pos he]
                apply ih
                subst he
                have := mu_match t stack tok input
                omega
              · rw [if_neg he]; simp
        | Nonterminal nt =>
            rcases input with _ | ⟨⟨tok, tt⟩, input⟩
            · rw [parseLoop]
              cases hlk : lookupTable LL1ParseTable.default.table (nt, Terminal.Eos) with
              | none => simp
              | some i =>
                  have hok := List.all_eq_true.mp default_entries_ok _ (lookupTable_mem hlk)
                  obtain ⟨r, hget, hlhs, hcase⟩ := entryOK_spec hok
                  have hget2 : LL1ParseTable.default.rules.get? i = some r := hget
                  have hlhs2 : r.lhs = nt := hlhs
                  have hcase2 : stackWeight r.rhs < ntWeight nt ∨
                      ∃ rest, r.rhs = Term.Terminal Terminal.Eos :: rest ∧
                        stackWeight r.rhs < 8 + ntWeight nt := hcase
                  dsimp only
                  rw [hget2]
                  dsimp only
                  rw [if_pos hlhs2.symm]
                  apply ih
                  have := mu_expand stack [] rfl hcase2
                  omega
            · rw [parseLoop]
              cases hlk : lookupTable LL1ParseTable.default.table (nt, tt) with
              | none => simp
              | some i =>
                  have hok := List.all_eq_true.mp default_entries_ok _ (lookupTable_mem hlk)
                  obtain ⟨r, hget, hlhs, hcase⟩ := entryOK_spec hok
                  have hget2 : LL1ParseTable.default.rules.get? i = some r := hget
                  have hlhs2 : r.lhs = nt := hlhs
                  have hcase2 : stackWeight r.rhs < ntWeight nt ∨
                      ∃ rest, r.rhs = Term.Terminal tt :: rest ∧
                        stackWeight r.rhs < 8 + ntWeight nt := hcase
                  dsimp only
                  rw [hget2]
                  dsimp only
                  rw [if_pos hlhs2.symm]
                  apply ih
                  have := mu_expand stack ((tok, tt) :: input) rfl hcase2
                  omega

theorem mapM_narrowOne_error {l : List Token}
    (hbad : ∃ t ∈ l, tokenToTerminal t = none) :
    ∃ t, t ∈ l ∧ tokenToTerminal t = none ∧
      l.mapM narrowOne = (Except.error t : Except Token (List (Token × Terminal))) := by
  induction l with
  | nil => obtain ⟨t, ht, _⟩ := hbad; cases ht
  | cons a l ih =>
      cases ha : tokenToTerminal a with
      | none =>
          refine ⟨a, List.mem_cons_self _ _, ha, ?_⟩
          have h1 : narrowOne a = Except.error a := by simp [narrowOne, ha]
          rw [List.mapM_cons, h1]
          rfl
      | some ta =>
          obtain ⟨t2, hmem2, hn2, hmap⟩ := ih (by
            rcases hbad with ⟨t, hmem, hn⟩
            rcases List.mem_cons.mp hmem with rfl | hmem2
            · rw [ha] at hn; cases hn
            · exact ⟨t, hmem2, hn⟩)
          refine ⟨t2, List.mem_cons_of_mem _ hmem2, hn2, ?_⟩
          have h1 : narrowOne a = Except.ok (a, ta) := by simp [narrowOne, ha]
          simp only [List.mapM_cons, h1, hmap]
          rfl

/-! Generic facts about `pairsOK`, `headP` and `lastP`. -/

theorem lastP_some {α} {p : α → Bool} {l : List α} {y : α}
    (h : lastP p l = true) (hy : l.getLast? = some y) : p y = true := by
  simpa [lastP, hy] using h

theorem lastP_concat {α} (p : α → Bool) (l : List α) (x : α) :
    lastP p (l ++ [x]) = p x := by
  simp [lastP, List.getLast?_concat]

theorem lastP_append2 {α} (p : α → Bool) (l : List α) (x y : α) :
    lastP p (l ++ [x, y]) = p y := by
  simp [lastP, List.getLast?_append]

theorem headP_append_left {α} (p : α → Bool) {l : List α} (h : l ≠ []) (l₂ : List α) :
    headP p (l ++ l₂) = headP p l := by
  cases l with
  | nil => cases h rfl
  | cons a t => simp [headP]

theorem pairsOK_append2 {α} (p : α → α → Bool) :
    ∀ (l₁ l₂ : List α), pairsOK p l₁ = true → pairsOK p l₂ = true →
      (∀ y z, l₁.getLast? = some y → l₂.head? = some z → p y z = true) →
      pairsOK p (l₁ ++ l₂) = true
  | [], l₂, _, h₂, _ => by simpa using h₂
  | [a], l₂, h₁, h₂, hyz => by
      cases l₂ with
      | nil => simpa using h₁
      | cons z rest =>
          have hp := hyz a z rfl rfl
          simpa [pairsOK, hp] using h₂
  | a :: b :: rest, l₂, h₁, h₂, hyz => by
      have h1 := (Bool.and_eq_true _ _).mp (by simpa [pairsOK] using h₁)
      have hrec := pairsOK_append2 p (b :: rest) l₂ h1.2 h₂ (fun y z hy hz =>
        hyz y z (by rw [List.getLast?_cons_cons]; exact hy) hz)
      simpa [pairsOK, h1.1] using hrec

theorem pairsOK_concat {α} (p : α → α → Bool) (l : List α) (x : α)
    (h : pairsOK p l = true) (hl : ∀ y, l.getLast? = some y → p y x = true) :
    pairsOK p (l ++ [x]) = true :=
  pairsOK_append2 p l [x] h rfl (fun y z hy hz => by
    simp only [List.head?_cons, Option.some.injEq] at hz
    subst hz
    exact hl y hy)

theorem pairsOK_dropLast {α} (p : α → α → Bool) :
    ∀ l : List α, pairsOK p l = true → pairsOK p l.dropLast = true
  | [], _ => rfl
  | [_], _ => rfl
  | a :: b :: rest, h => by
      have h1 := (Bool.and_eq_true _ _).mp (by simpa [pairsOK] using h)
      have hrec := pairsOK_dropLast p (b :: rest) h1.2
      cases rest with
      | nil => rfl
      | cons r rest2 =>
          simp only [List.dropLast_cons₂] at hrec ⊢
          simpa [pairsOK, h1.1] using hrec

/-! Preservation of `OutInv` by the pushes performed by `prestep`. -/

theorem outInv_nil : OutInv [] true := by
  refine ⟨rfl, rfl, ?_, rfl, rfl, rfl⟩
  intro hf; exact absurd hf (by decide)

theorem outInv_pushSpace {out : List PositionedChar} (h : OutInv out false) (r c : Nat) :
    OutInv (out ++ [⟨' ', r, c⟩]) true := by
  obtain ⟨h1, h2, h3, h4, h5, h6⟩ := h
  obtain ⟨hne, hlast⟩ := h3 rfl
  refine ⟨?_, ?_, ?_, ?_, ?_, ?_⟩
  · apply pairsOK_concat _ _ _ h1
    intro y hy
    have hy2 : (y.c == ' ') = false := by
      simpa [notSpace] using lastP_some hlast hy
    simp [spaceRel, hy2]
  · rw [headP_append_left _ hne]; exact h2
  · intro hf; exact absurd hf (by decide)
  · simp only [List.all_append, h4, Bool.true_and, List.all_cons, List.all_nil,
      Bool.and_true]
    decide
  · apply pairsOK_concat _ _ _ h5
    intro y hy
    simp [openRel]
  · rw [lastP_concat]; rfl

theorem outInv_pushChar {out : List PositionedChar} {spaced : Bool} (h : OutInv out spaced)
    (x : PositionedChar) (hnl : notNl x.c = true) (hsp : notSpace x.c = true)
    (hsl : notSlash x.c = true) : OutInv (out ++ [x]) false := by
  obtain ⟨h1, h2, h3, h4, h5, h6⟩ := h
  have hspf : (x.c == ' ') = false := by simpa [notSpace] using hsp
  refine ⟨?_, ?_, ?_, ?_, ?_, ?_⟩
  · apply pairsOK_concat _ _ _ h1
    intro y hy
    simp [spaceRel, hspf]
  · cases out with
    | nil => simpa [headP, notSpace] using hsp
    | cons a t => rw [headP_append_left _ (by simp)]; exact h2
  · intro _
    exact ⟨by simp, by rw [lastP_concat]; exact hsp⟩
  · simp only [List.all_append, h4, Bool.true_and, List.all_cons, List.all_nil,
      Bool.and_true]
    exact hnl
  · apply pairsOK_concat _ _ _ h5
    intro y hy
    have hy2 : (y.c == '/') = false := by
      simpa [notSlash] using lastP_some h6 hy
    simp [openRel, hy2]
  · rw [lastP_concat]; exact hsl

theorem outInv_pushSlashSpace {out : List PositionedChar} {spaced : Bool}
    (h : OutInv out spaced) (slash : PositionedChar) (hs : slash.c = '/')
    (r c : Nat) : OutInv (out ++ [slash, ⟨' ', r, c⟩]) true := by
  obtain ⟨h1, h2, h3, h4, h5, h6⟩ := h
  refine ⟨?_, ?_, ?_, ?_, ?_, ?_⟩
  · apply pairsOK_append2 _ _ _ h1 (by simp [pairsOK, spaceRel, hs])
    intro y z hy hz
    simp only [List.head?_cons, Option.some.injEq] at hz
    subst hz
    simp [spaceRel, hs]
  · cases out with
    | nil => simp [headP, notSpace, hs]
    | cons a t => rw [headP_append_left _ (by simp)]; exact h2
  · intro hf; exact absurd hf (by decide)
  · simp only [List.all_append, h4, Bool.true_and, List.all_cons, List.all_nil,
      Bool.and_true]
    simp [notNl, hs]
  · apply pairsOK_append2 _ _ _ h5 (by simp [pairsOK, openRel, hs])
    intro y z hy hz
    simp only [List.head?_cons, Option.some.injEq] at hz
    subst hz
    have hy2 : (y.c == '/') = false := by
      simpa [notSlash] using lastP_some h6 hy
    simp [openRel, hy2]
  · rw [lastP_append2]; rfl

theorem outInv_pushSlashChar {out : List PositionedChar} {spaced : Bool}
    (h : OutInv out spaced) (slash : PositionedChar) (hs : slash.c = '/')
    (x : PositionedChar) (hnl : notNl x.c = true) (hsp : notSpace x.c = true)
    (hsl : notSlash x.c = true) (hst : (x.c == '*') = false) :
    OutInv (out ++ [slash, x]) false := by
  obtain ⟨h1, h2, h3, h4, h5, h6⟩ := h
  have hspf : (x.c == ' ') = false := by simpa [notSpace] using hsp
  have hslf : (x.c == '/') = false := by simpa [notSlash] using hsl
  refine ⟨?_, ?_, ?_, ?_, ?_, ?_⟩
  · apply pairsOK_append2 _ _ _ h1 (by simp [pairsOK, spaceRel, hs, hspf])
    intro y z hy hz
    simp only [List.head?_cons, Option.some.injEq] at hz
    subst hz
    simp [spaceRel, hs]
  · cases out with
    | nil => simp [headP, notSpace, hs]
    | cons a t => rw [headP_append_left _ (by simp)]; exact h2
  · intro _
    refine ⟨by simp, ?_⟩
    rw [lastP_append2]; exact hsp
  · simp only [List.all_append, h4, Bool.true_and, List.all_cons, List.all_nil,
      Bool.and_true]
    simp [notNl, hs]
    simpa [notNl] using hnl
  · apply pairsOK_append2 _ _ _ h5 (by simp [pairsOK, openRel, hs, hslf, hst])
    intro y z hy hz
    simp only [List.head?_cons, Option.some.injEq] at hz
    subst hz
    have hy2 : (y.c == '/') = false := by
      simpa [notSlash] using lastP_some h6 hy
    simp [openRel, hy2]
  · rw [lastP_append2]; exact hsl

theorem emitChar_comment (st : PreSt) (c : Char) :
    (emitChar st c).comment = st.comment := by
  unfold emitChar pushSpaced
  split_ifs <;> rfl

theorem outInv_emitChar {st : PreSt} (h : OutInv st.out st.spaced) {c : Char}
    (hc : ¬c = '/') :
    OutInv (emitChar st c).out (emitChar st c).spaced := by
  unfold emitChar pushSpaced
  by_cases hnl : c = '\n'
  · rw [if_pos hnl]
    by_cases hsp : st.spaced = true
    · rw [if_pos hsp]
      simpa [hsp] using h
    · have hspf : st.spaced = false := by rwa [Bool.not_eq_true] at hsp
      rw [if_neg hsp]
      exact outInv_pushSpace (hspf ▸ h) st.row st.col
  · rw [if_neg hnl]
    by_cases hspc : c = ' '
    · rw [if_pos hspc]
      by_cases hsp : st.spaced = true
      · rw [if_pos hsp]
        simpa [hsp] using h
      · have hspf : st.spaced = false := by rwa [Bool.not_eq_true] at hsp
        rw [if_neg hsp]
        exact outInv_pushSpace (hspf ▸ h) st.row st.col
    · rw [if_neg hspc]
      exact outInv_pushChar h ⟨c, st.row, st.col⟩ (by simpa [notNl] using hnl)
        (by simpa [notSpace] using hspc) (by simpa [notSlash] using hc)

theorem preInv_prestep (st : PreSt) (c : Char) (h : PreInv st) :
    PreInv (prestep st c) := by
  obtain ⟨h1, h2⟩ := h
  cases hcm : st.comment with
  | None =>
      by_cases hc : c = '/'
      · constructor
        · simp only [prestep, hcm]
          rw [if_pos hc]
          exact h1
        · simp only [prestep, hcm]
          rw [if_pos hc]
          simpa [slashInv] using hc
      · constructor
        · simp only [prestep, hcm]
          rw [if_neg hc]
          exact outInv_emitChar h1 hc
        · simp only [prestep, hcm]
          rw [if_neg hc]
          show slashInv (emitChar st c).comment
          rw [emitChar_comment, hcm]
          trivial
  | EnteringInlineOrBlock slash =>
      have hsc : slash.c = '/' := by rw [hcm] at h2; exact h2
      by_cases hc : c = '/'
      · constructor
        · simp only [prestep, hcm]
          rw [if_pos hc]
          show OutInv (pushSpaced st slash.row slash.col).out
            (pushSpaced st slash.row slash.col).spaced
          unfold pushSpaced
          by_cases hsp : st.spaced = true
          · rw [if_pos hsp]; simpa [hsp] using h1
          · have hspf : st.spaced = false := by rwa [Bool.not_eq_true] at hsp
            rw [if_neg hsp]
            exact outInv_pushSpace (hspf ▸ h1) slash.row slash.col
        · simp only [prestep, hcm]
          rw [if_pos hc]
          trivial
      · by_cases hc2 : c = '*'
        · constructor
          · simp only [prestep, hcm]
            rw [if_neg hc, if_pos hc2]
            show OutInv (pushSpaced st slash.row slash.col).out
              (pushSpaced st slash.row slash.col).spaced
            unfold pushSpaced
            by_cases hsp : st.spaced = true
            · rw [if_pos hsp]; simpa [hsp] using h1
            · have hspf : st.spaced = false := by rwa [Bool.not_eq_true] at hsp
              rw [if_neg hsp]
              exact outInv_pushSpace (hspf ▸ h1) slash.row slash.col
          · simp only [prestep, hcm]
            rw [if_neg hc, if_pos hc2]
            trivial
        · constructor
          · simp only [prestep, hcm]
            rw [if_neg hc, if_neg hc2]
            unfold emitChar pushSpaced
            by_cases hnl : c = '\n'
            · rw [if_pos hnl]
              rw [if_neg (by exact Bool.false_ne_true)]
              have := outInv_pushSlashSpace h1 slash hsc st.row st.col
              simpa [List.append_assoc] using this
            · rw [if_neg hnl]
              by_cases hspc : c = ' '
              · rw [if_pos hspc]
                rw [if_neg (by exact Bool.false_ne_true)]
                have := outInv_pushSlashSpace h1 slash hsc st.row st.col
                simpa [List.append_assoc] using this
              · rw [if_neg hspc]
                have := outInv_pushSlashChar h1 slash hsc ⟨c, st.row, st.col⟩
                  (by simpa [notNl] using hnl) (by simpa [notSpace] using hspc)
                  (by simpa [notSlash] using hc) (by simp [hc2])
                simpa [List.append_assoc] using this
          · simp only [prestep, hcm]
            rw [if_neg hc, if_neg hc2]
            rw [emitChar_comment]
            trivial
  | Inline =>
      constructor
      · simp only [prestep, hcm]
        split_ifs <;> exact h1
      · simp only [prestep, hcm]
        split_ifs
        · trivial
        · show slashInv st.comment
          rw [hcm]; trivial
  | Block =>
      constructor
      · simp only [prestep, hcm]
        split_ifs <;> exact h1
      · simp only [prestep, hcm]
        split_ifs <;> trivial
  | LeavingBlock =>
      constructor
      · simp only [prestep, hcm]
        split_ifs <;> exact h1
      · simp only [prestep, hcm]
        split_ifs <;> trivial

theorem preInv_foldl :
    ∀ (l : List Char) (st : PreSt), PreInv st → PreInv (l.foldl prestep st)
  | [], _, h => h
  | c :: rest, st, h => preInv_foldl rest _ (preInv_prestep st c h)

theorem preInv_init : PreInv initPre := ⟨outInv_nil, trivial⟩

/-! Facts about the trailing-space trim at the end of `preprocess`. -/

theorem headP_dropLast {α} (p : α → Bool) :
    ∀ l : List α, headP p l = true → headP p l.dropLast = true
  | [], _ => rfl
  | [_], _ => rfl
  | _ :: _ :: _, h => by simpa [headP, List.dropLast_cons₂] using h

theorem lastP_dropLast_space :
    ∀ (l : List PositionedChar) (y : PositionedChar),
      pairsOK (fun a b => spaceRel a.c b.c) l = true →
      l.getLast? = some y → (y.c == ' ') = true →
      lastP (fun x => notSpace x.c) l.dropLast = true
  | [], y, _, hy, _ => by cases hy
  | [_], _, _, _, _ => rfl
  | a :: b :: rest, y, h, hy, hsp => by
      have h1 := (Bool.and_eq_true _ _).mp (by simpa [pairsOK] using h)
      rw [List.getLast?_cons_cons] at hy
      cases rest with
      | nil =>
          simp only [List.getLast?_singleton, Option.some.injEq] at hy
          subst hy
          have hab : (a.c == ' ') = false := by
            have := h1.1
            simpa [spaceRel, hsp] using this
          simp only [List.dropLast_cons₂, List.dropLast_single]
          simp [lastP, notSpace]
          simpa using hab
      | cons r rest2 =>
          have hrec := lastP_dropLast_space (b :: r :: rest2) y h1.2 hy hsp
          rw [List.dropLast_cons₂] at hrec ⊢
          rw [List.dropLast_cons₂]
          simpa [lastP] using hrec

/-- What a successful run of `preprocess` guarantees about its output:
obtained from the loop invariant plus the final trailing-space trim. -/
theorem preprocess_ok_props {source : String} {out : List PositionedChar}
    (h : preprocess source = Except.ok out) :
    pairsOK (fun a b => spaceRel a.c b.c) out = true ∧
    headP (fun x => notSpace x.c) out = true ∧
    lastP (fun x => notSpace x.c) out = true ∧
    out.all (fun x => notNl x.c) = true ∧
    pairsOK (fun a b => openRel a.c b.c) out = true := by
  have hin := (preInv_foldl source.data initPre preInv_init).1
  obtain ⟨a1, a2, a3, a4, a5, a6⟩ := hin
  unfold preprocess preprocessChars finalizePre at h
  set acc := source.data.foldl prestep initPre with hacc
  by_cases hb : acc.comment = CommentState.Block
  · rw [if_pos hb] at h; cases h
  · rw [if_neg hb] at h
    injection h with h
    split at h
    · next y hl =>
        split at h
        · next hy =>
            subst h
            refine ⟨pairsOK_dropLast _ _ a1, headP_dropLast _ _ a2, ?_, ?_, ?_⟩
            · exact lastP_dropLast_space acc.out y a1 hl (by simp [hy])
            · rw [List.all_eq_true] at a4 ⊢
              exact fun x hx => a4 x (List.dropLast_subset _ hx)
            · exact pairsOK_dropLast _ _ a5
        · next hy =>
            subst h
            refine ⟨a1, a2, ?_, a4, a5⟩
            simp [lastP, hl, notSpace, hy]
    · next hl =>
        rw [List.getLast?_eq_none_iff] at hl
        rw [hl] at h
        subst h
        exact ⟨rfl, rfl, rfl, rfl, rfl⟩

/-! Characterization of how the `EnteringInlineOrBlock` state arises, and
the effect of a dangling buffered slash at end-of-input. -/

theorem prestep_entering {st : PreSt} {c : Char} {p : PositionedChar}
    (h : (prestep st c).comment = CommentState.EnteringInlineOrBlock p) :
    st.comment = CommentState.None ∧ c = '/' ∧
      prestep st c = { st with
        comment := CommentState.EnteringInlineOrBlock ⟨c, st.row, st.col⟩,
        col := st.col + 1 } := by
  cases hcm : st.comment with
  | None =>
      by_cases hc : c = '/'
      · refine ⟨rfl, hc, ?_⟩
        simp only [prestep, hcm]
        rw [if_pos hc]
      · exfalso
        simp only [prestep, hcm] at h
        rw [if_neg hc, emitChar_comment, hcm] at h
        cases h
  | EnteringInlineOrBlock slash =>
      exfalso
      simp only [prestep, hcm] at h
      split_ifs at h
      simp_all [emitChar_comment]
  | Inline =>
      exfalso
      simp only [prestep, hcm] at h
      split_ifs at h
      simp_all [emitChar_comment]
  | Block =>
      exfalso
      simp only [prestep, hcm] at h
      split_ifs at h
  | LeavingBlock =>
      exfalso
      simp only [prestep, hcm] at h
      split_ifs at h

theorem foldl_entering_dropLast :
    ∀ (l : List Char) (st : PreSt) (p : PositionedChar),
      (l.foldl prestep st).comment = CommentState.EnteringInlineOrBlock p →
      finalizePre (l.foldl prestep st) = finalizePre (l.dropLast.foldl prestep st)
  | [], _, _, _ => rfl
  | [c], st, p, h => by
      simp only [List.foldl_cons, List.foldl_nil] at h ⊢
      obtain ⟨h1, _, h3⟩ := prestep_entering h
      rw [List.dropLast_single]
      simp only [List.foldl_nil]
      rw [h3]
      unfold finalizePre
      rw [if_neg (by simp), if_neg (by rw [h1]; simp)]
  | c1 :: c2 :: rest, st, p, h => by
      have hstep : (c1 :: c2 :: rest).dropLast = c1 :: (c2 :: rest).dropLast := rfl
      rw [hstep]
      simp only [List.foldl_cons] at h ⊢
      exact foldl_entering_dropLast (c2 :: rest) (prestep st c1) p h

/-! Re-running the preprocessor on its own output: evaluation lemmas for
single steps, and the core lemma `rerun` showing that on a character list
with no newline, no adjacent spaces (none leading when the `spaced` flag is
set) and no comment-opening pair, the loop re-emits exactly the input
characters, except for a trailing slash which stays buffered. -/

theorem emitChar_space_notSpaced (st : PreSt) (h : st.spaced = false) :
    emitChar st ' ' = { st with
      out := st.out ++ [⟨' ', st.row, st.col⟩], spaced := true, col := st.col + 1 } := by
  unfold emitChar pushSpaced
  rw [if_neg (by decide), if_pos rfl, if_neg (by rw [h]; exact Bool.false_ne_true)]

theorem emitChar_push_eval (st : PreSt) (c : Char) (h1 : ¬c = '\n') (h2 : ¬c = ' ') :
    emitChar st c = { st with
      out := st.out ++ [⟨c, st.row, st.col⟩], spaced := false, col := st.col + 1 } := by
  unfold emitChar
  rw [if_neg h1, if_neg h2]

theorem prestep_None_slash (st : PreSt) (h : st.comment = CommentState.None) :
    prestep st '/' = { st with
      comment := CommentState.EnteringInlineOrBlock ⟨'/', st.row, st.col⟩,
      col := st.col + 1 } := by
  simp only [prestep, h]
  rw [if_pos trivial]

theorem prestep_None_emit (st : PreSt) (c : Char) (h : st.comment = CommentState.None)
    (hc : ¬c = '/') : prestep st c = emitChar st c := by
  simp only [prestep, h]
  rw [if_neg hc]

theorem prestep_entering_emit (st : PreSt) (slash : PositionedChar) (c : Char)
    (h : st.comment = CommentState.EnteringInlineOrBlock slash) (hc : ¬c = '/')
    (hc2 : ¬c = '*') :
    prestep st c = emitChar { st with
      comment := CommentState.None, out := st.out ++ [slash], spaced := false } c := by
  simp only [prestep, h]
  rw [if_neg hc, if_neg hc2]

theorem dropTrailSlash_nil : dropTrailSlash [] = [] := by decide

theorem dropTrailSlash_slash : dropTrailSlash ['/'] = [] := by decide

theorem dropTrailSlash_singleton {a : Char} (h : ¬a = '/') :
    dropTrailSlash [a] = [a] := by
  unfold dropTrailSlash
  rw [if_neg (by simp [h])]

theorem dropTrailSlash_cons_ne_nil (a : Char) {l : List Char} (h : l ≠ []) :
    dropTrailSlash (a :: l) = a :: dropTrailSlash l := by
  cases l with
  | nil => cases h rfl
  | cons b t =>
      unfold dropTrailSlash
      rw [List.getLast?_cons_cons]
      split_ifs with h2
      · rw [List.dropLast_cons₂]
      · rfl

theorem dropTrailSlash_cons_ne_slash {a : Char} (h : ¬a = '/') (l : List Char) :
    dropTrailSlash (a :: l) = a :: dropTrailSlash l := by
  cases l with
  | nil => rw [dropTrailSlash_singleton h, dropTrailSlash_nil]
  | cons b t => exact dropTrailSlash_cons_ne_nil a (by simp)

theorem pairsOK_tail {α} {p : α → α → Bool} :
    ∀ {a : α} {l : List α}, pairsOK p (a :: l) = true → pairsOK p l = true := by
  intro a l h
  cases l with
  | nil => rfl
  | cons b t => exact ((Bool.and_eq_true _ _).mp (by simpa [pairsOK] using h)).2

theorem pairsOK_map {α β} (q : β → β → Bool) (f : α → β) :
    ∀ l : List α, pairsOK q (l.map f) = pairsOK (fun a b => q (f a) (f b)) l
  | [] => rfl
  | [_] => rfl
  | a :: b :: rest => by
      have hrec := pairsOK_map q f (b :: rest)
      simp only [List.map_cons] at hrec ⊢
      simp only [pairsOK]
      rw [hrec]

theorem headP_map {α β} (p : β → Bool) (f : α → β) (l : List α) :
    headP p (l.map f) = headP (fun a => p (f a)) l := by
  cases l <;> simp [headP]

theorem rerun :
    ∀ (l : List Char) (out : List PositionedChar) (row col : Nat) (spaced : Bool),
      (spaced = true → headP notSpace l = true) →
      l.all notNl = true →
      pairsOK spaceRel l = true →
      pairsOK openRel l = true →
      ((l.foldl prestep ⟨out, row, col, spaced, CommentState.None⟩).out.map
          (fun x => x.c) =
        out.map (fun x => x.c) ++ dropTrailSlash l) ∧
      ((l.foldl prestep ⟨out, row, col, spaced, CommentState.None⟩).comment =
          CommentState.None ∨
        ∃ q, (l.foldl prestep ⟨out, row, col, spaced, CommentState.None⟩).comment =
          CommentState.EnteringInlineOrBlock q)
  | [], out, row, col, spaced, _, _, _, _ => by
      simp only [List.foldl_nil]
      exact ⟨by rw [dropTrailSlash_nil, List.append_nil], Or.inl (by simp)⟩
  | [c], out, row, col, spaced, hhd, hnl, _, _ => by
      have hnlc : ¬c = '\n' := by
        simp only [List.all_cons, List.all_nil, Bool.and_true] at hnl
        simpa [notNl] using hnl
      simp only [List.foldl_cons, List.foldl_nil]
      by_cases hc : c = '/'
      · subst hc
        rw [prestep_None_slash _ rfl]
        refine ⟨?_, Or.inr ⟨⟨'/', row, col⟩, rfl⟩⟩
        rw [dropTrailSlash_slash, List.append_nil]
      · rw [prestep_None_emit _ c rfl hc]
        refine ⟨?_, Or.inl (by rw [emitChar_comment])⟩
        by_cases hsc : c = ' '
        · have hspf : spaced = false := by
            cases hb : spaced
            · rfl
            · exfalso
              have h2 := hhd hb
              rw [hsc] at h2
              simp [headP, notSpace] at h2
          subst hsc hspf
          rw [emitChar_space_notSpaced _ rfl]
          rw [dropTrailSlash_singleton (by decide)]
          simp
        · rw [emitChar_push_eval _ c hnlc hsc]
          rw [dropTrailSlash_singleton hc]
          simp
  | c1 :: c2 :: rest, out, row, col, spaced, hhd, hnl, hsp, hop => by
      rw [List.all_cons] at hnl
      obtain ⟨hnl1, hnl2⟩ := (Bool.and_eq_true _ _).mp hnl
      have hsp' := (Bool.and_eq_true _ _).mp (by simpa [pairsOK] using hsp)
      have hop' := (Bool.and_eq_true _ _).mp (by simpa [pairsOK] using hop)
      have hnlc1 : ¬c1 = '\n' := by simpa [notNl] using hnl1
      have hnlc2 : ¬c2 = '\n' := by
        rw [List.all_cons] at hnl2
        have := ((Bool.and_eq_true _ _).mp hnl2).1
        simpa [notNl] using this
      have hne : (c2 :: rest : List Char) ≠ [] := by simp
      simp only [List.foldl_cons]
      by_cases hc : c1 = '/'
      · subst hc
        have hc2 : ¬c2 = '/' ∧ ¬c2 = '*' := by
          have h := hop'.1
          simpa [openRel, not_or] using h
        rw [prestep_None_slash _ rfl]
        rw [prestep_entering_emit _ _ c2 rfl hc2.1 hc2.2]
        by_cases hsc2 : c2 = ' '
        · subst hsc2
          rw [emitChar_space_notSpaced _ rfl]
          have hhd2 : (true : Bool) = true → headP notSpace rest = true := by
            intro _
            cases rest with
            | nil => rfl
            | cons r rest2 =>
                have hpair := ((Bool.and_eq_true _ _).mp
                  (by simpa [pairsOK] using hsp'.2)).1
                have hr : ¬r = ' ' := by simpa [spaceRel] using hpair
                simp [headP, notSpace, hr]
          obtain ⟨ih1, ih2⟩ := rerun rest
            (out ++ [⟨'/', row, col⟩] ++ [⟨' ', row, col + 1⟩]) row (col + 1 + 1) true
            hhd2 (by rw [List.all_cons] at hnl2; exact ((Bool.and_eq_true _ _).mp hnl2).2)
            (pairsOK_tail hsp'.2) (pairsOK_tail hop'.2)
          exact ⟨ih1.trans (by
            rw [dropTrailSlash_cons_ne_nil '/' hne,
              dropTrailSlash_cons_ne_slash (by decide) rest]
            simp), ih2⟩
        · rw [emitChar_push_eval _ c2 hnlc2 hsc2]
          obtain ⟨ih1, ih2⟩ := rerun rest
            (out ++ [⟨'/', row, col⟩] ++ [⟨c2, row, col + 1⟩]) row (col + 1 + 1) false
            (fun h => absurd h Bool.false_ne_true)
            (by rw [List.all_cons] at hnl2; exact ((Bool.and_eq_true _ _).mp hnl2).2)
            (pairsOK_tail hsp'.2) (pairsOK_tail hop'.2)
          exact ⟨ih1.trans (by
            rw [dropTrailSlash_cons_ne_nil '/' hne,
              dropTrailSlash_cons_ne_slash hc2.1 rest]
            simp), ih2⟩
      · rw [prestep_None_emit _ c1 rfl hc]
        by_cases hsc : c1 = ' '
        · have hspf : spaced = false := by
            cases hb : spaced
            · rfl
            · exfalso
              have h2 := hhd hb
              rw [hsc] at h2
              simp [headP, notSpace] at h2
          subst hsc hspf
          rw [emitChar_space_notSpaced _ rfl]
          have hhd2 : (true : Bool) = true → headP notSpace (c2 :: rest) = true := by
            intro _
            have hr : ¬c2 = ' ' := by simpa [spaceRel] using hsp'.1
            simp [headP, notSpace, hr]
          obtain ⟨ih1, ih2⟩ := rerun (c2 :: rest)
            (out ++ [⟨' ', row, col⟩]) row (col + 1) true
            hhd2 hnl2 hsp'.2 hop'.2
          exact ⟨ih1.trans (by
            rw [dropTrailSlash_cons_ne_nil ' ' hne]
            simp), ih2⟩
        · rw [emitChar_push_eval _ c1 hnlc1 hsc]
          obtain ⟨ih1, ih2⟩ := rerun (c2 :: rest)
            (out ++ [⟨c1, row, col⟩]) row (col + 1) false
            (fun h => absurd h Bool.false_ne_true)
            hnl2 hsp'.2 hop'.2
          exact ⟨ih1.trans (by
            rw [dropTrailSlash_cons_ne_nil c1 hne]
            simp), ih2⟩

/-! The claim theorems. -/

/-- C1: the claim states that end-of-input in state `Block` or in state
`LeavingBlock` is the error `EofWhileBlockComment`.  The code only checks
`Block`: on the input `"/**"`, which reaches end-of-input in state
`LeavingBlock` (inside an unterminated block comment), `preprocess` returns
success with empty output instead of the error the claim (and the intent of
`EofWhileBlockComment`) requires. -/
theorem preprocess_eof_leavingBlock_bug :
    commentStateAfter "/**" = CommentState.LeavingBlock ∧
      preprocess "/**" = Except.ok [] := by
  decide

/-- C2: on the token stream of the source `"a + b"`, `parse` with the
hand-built table succeeds, and the rule indices recorded in the trace (in
order, skipping match and final rows) are exactly
0, 3, 7, 5, 1, 3, 7, 5, 2. -/
theorem parse_a_plus_b_trace :
    preprocess "a + b" =
      Except.ok [⟨'a', 1, 1⟩, ⟨' ', 1, 2⟩, ⟨'+', 1, 3⟩, ⟨' ', 1, 4⟩, ⟨'b', 1, 5⟩] ∧
    lex [⟨'a', 1, 1⟩, ⟨' ', 1, 2⟩, ⟨'+', 1, 3⟩, ⟨' ', 1, 4⟩, ⟨'b', 1, 5⟩] =
      Except.ok [⟨TokenValue.Ident "a", 1, 1, "a"⟩, ⟨TokenValue.Op Op.Add, 1, 3, "+"⟩,
        ⟨TokenValue.Ident "b", 1, 5, "b"⟩] ∧
    (parse LL1ParseTable.default
        [⟨TokenValue.Ident "a", 1, 1, "a"⟩, ⟨TokenValue.Op Op.Add, 1, 3, "+"⟩,
          ⟨TokenValue.Ident "b", 1, 5, "b"⟩]).map
      (fun r => (ruleIndices r.1, r.2)) =
      some ([0, 3, 7, 5, 1, 3, 7, 5, 2], Except.ok ()) := by
  refine ⟨by decide, by decide, by decide⟩

/-- C4: a token stream containing a token with no corresponding `Terminal`
makes `parse` fail with `InvalidToken` carrying such a token, with an empty
trace, for any parse table: the narrowing happens before the stack loop. -/
theorem parse_invalid_token (pt : LL1ParseTable) (input : List Token)
    (hbad : ∃ t ∈ input, tokenToTerminal t = none) :
    ∃ t, t ∈ input ∧ tokenToTerminal t = none ∧
      parse pt input = some ([], Except.error (ParseError.InvalidToken t)) := by
  obtain ⟨t, hmem, hn, hmap⟩ := mapM_narrowOne_error (l := input.reverse) (by
    rcases hbad with ⟨t, hm, hn⟩
    exact ⟨t, List.mem_reverse.mpr hm, hn⟩)
  refine ⟨t, List.mem_reverse.mp hmem, hn, ?_⟩
  unfold parse narrowTokens
  rw [hmap]

/-- C4 witness: a `Kw` token (the `if` keyword) has no `Terminal`. -/
theorem parse_invalid_token_witness :
    ∃ t, t ∈ [(⟨TokenValue.Kw Kw.If, 1, 1, "if"⟩ : Token)] ∧ tokenToTerminal t = none ∧
      parse LL1ParseTable.default [⟨TokenValue.Kw Kw.If, 1, 1, "if"⟩] =
        some ([], Except.error (ParseError.InvalidToken ⟨TokenValue.Kw Kw.If, 1, 1, "if"⟩)) := by
  have h := parse_invalid_token LL1ParseTable.default [⟨TokenValue.Kw Kw.If, 1, 1, "if"⟩]
    ⟨⟨TokenValue.Kw Kw.If, 1, 1, "if"⟩, by decide, by decide⟩
  obtain ⟨t, hmem, hn, hp⟩ := h
  rcases List.mem_singleton.mp hmem with rfl
  exact ⟨_, List.mem_singleton.mpr rfl, hn, hp⟩

/-- C6: maximal munch.  On the preprocessed character sequence of `"intx"`,
`lex` produces a single identifier token `intx` (finalized by the
end-of-input table), not the keyword `int` followed by the identifier
`x`. -/
theorem lex_intx_maximal_munch :
    preprocess "intx" = Except.ok [⟨'i', 1, 1⟩, ⟨'n', 1, 2⟩, ⟨'t', 1, 3⟩, ⟨'x', 1, 4⟩] ∧
    lex [⟨'i', 1, 1⟩, ⟨'n', 1, 2⟩, ⟨'t', 1, 3⟩, ⟨'x', 1, 4⟩] =
      Except.ok [⟨TokenValue.Ident "intx", 1, 1, "intx"⟩] := by
  refine ⟨by decide, by decide⟩

/-- C7: the hand-built table has no entry for the start nonterminal `E` at
end-of-stream, so `parse` on the empty token stream fails with
`UnexpectedEos` (recording a single error trace row). -/
theorem parse_empty_unexpectedEos :
    lookupTable LL1ParseTable.default.table (⟨"E"⟩, Terminal.Eos) = none ∧
    parse LL1ParseTable.default [] =
      some ([⟨[Term.Nonterminal ⟨"E"⟩], [], ParseTraceRowRule.Err⟩],
        Except.error ParseError.UnexpectedEos) := by
  refine ⟨by decide, by decide⟩

/-- C9: with the hand-built table, the parser driver loop terminates on
every finite input token stream: the fuel `parseFuel` chosen in `parse` is
never exhausted (and neither panicking operation modelled by `none` fires),
so `parse` always returns a result. -/
theorem parse_total (input : List Token) :
    ∃ res, parse LL1ParseTable.default input = some res := by
  unfold parse
  cases hn : narrowTokens input with
  | error t => exact ⟨_, rfl⟩
  | ok pairs =>
      have hmu : mu [Term.Nonterminal LL1ParseTable.default.start] pairs <
          parseFuel pairs.length := by
        have h5 : ntWeight LL1ParseTable.default.start = 5 := by decide
        simp [mu, topBit, stackWeight, termWeight, parseFuel, h5]
      have := parseLoop_total (parseFuel pairs.length)
        [Term.Nonterminal LL1ParseTable.default.start] pairs [] hmu
      exact Option.isSome_iff_exists.mp this

/-- C10: every lookup that succeeds in the hand-built table returns an
in-bounds rule index whose rule has the looked-up nonterminal as its
left-hand side — this is exactly why the `assert_eq!(nonterminal,
&rule.lhs)` in both nonterminal branches of `parse`, and the `rules[index]`
indexing before it, can never fail, whatever the input stream. -/
theorem parse_table_lhs_ok (nt : Nonterminal) (tt : Terminal) (i : Nat)
    (h : lookupTable LL1ParseTable.default.table (nt, tt) = some i) :
    ∃ r, LL1ParseTable.default.rules.get? i = some r ∧ r.lhs = nt := by
  have hm := lookupTable_mem h
  have hok := List.all_eq_true.mp default_entries_lhs_ok _ hm
  obtain ⟨r, hg, hl⟩ := entryLhsOK_spec hok
  exact ⟨r, hg, hl⟩

/-- C10 witness: the entry for `(E, Ident)` stores index 0, whose rule is
`E ::= T E-prime`. -/
theorem parse_table_lhs_ok_witness :
    ∃ r, LL1ParseTable.default.rules.get? 0 = some r ∧ r.lhs = ⟨"E"⟩ :=
  parse_table_lhs_ok ⟨"E"⟩ Terminal.Ident 0 (by decide)

/-- C5: on every successful run of `preprocess` the output never contains
two adjacent space characters, and a space is never the first or the last
element of the output. -/
theorem preprocess_space_coalescing (source : String) (out : List PositionedChar)
    (h : preprocess source = Except.ok out) :
    pairsOK (fun a b => spaceRel a.c b.c) out = true ∧
    headP (fun x => notSpace x.c) out = true ∧
    lastP (fun x => notSpace x.c) out = true := by
  obtain ⟨h1, h2, h3, _, _⟩ := preprocess_ok_props h
  exact ⟨h1, h2, h3⟩

/-- C5 witness: the output of `preprocess` on the source `"a  b"`. -/
theorem preprocess_space_coalescing_witness :
    pairsOK (fun a b => spaceRel a.c b.c)
      [(⟨'a', 1, 1⟩ : PositionedChar), ⟨' ', 1, 2⟩, ⟨'b', 1, 4⟩] = true ∧
    headP (fun x => notSpace x.c)
      [(⟨'a', 1, 1⟩ : PositionedChar), ⟨' ', 1, 2⟩, ⟨'b', 1, 4⟩] = true ∧
    lastP (fun x => notSpace x.c)
      [(⟨'a', 1, 1⟩ : PositionedChar), ⟨' ', 1, 2⟩, ⟨'b', 1, 4⟩] = true :=
  preprocess_space_coalescing "a  b" [⟨'a', 1, 1⟩, ⟨' ', 1, 2⟩, ⟨'b', 1, 4⟩] (by decide)

/-- C3 counterexample: the claim says the slash buffered in state
`EnteringInlineOrBlock` is emitted as a literal slash character at
end-of-input.  On the input `"/"` the preprocessor ends in exactly that
state, succeeds, and returns the empty output: the buffered slash is
discarded, not emitted. -/
theorem preprocess_dangling_slash_counterexample :
    commentStateAfter "/" = CommentState.EnteringInlineOrBlock ⟨'/', 1, 1⟩ ∧
      preprocess "/" = Except.ok [] := by
  decide

/-- C3 (amended): end-of-input in state `EnteringInlineOrBlock` is not an
error, but the buffered slash is dropped, not emitted: the result is
exactly the result of preprocessing the input without its final slash
character. -/
theorem preprocess_dangling_slash (source : String) (p : PositionedChar)
    (h : commentStateAfter source = CommentState.EnteringInlineOrBlock p) :
    (∃ out, preprocess source = Except.ok out) ∧
      preprocess source = preprocessChars source.data.dropLast := by
  unfold commentStateAfter at h
  constructor
  · unfold preprocess preprocessChars finalizePre
    rw [if_neg (by rw [h]; simp)]
    exact ⟨_, rfl⟩
  · unfold preprocess preprocessChars
    exact foldl_entering_dropLast source.data initPre p h

/-- C3 witness: the input `"/"`. -/
theorem preprocess_dangling_slash_witness :
    (∃ out, preprocess "/" = Except.ok out) ∧
      preprocess "/" = preprocessChars ("/".data.dropLast) :=
  preprocess_dangling_slash "/" ⟨'/', 1, 1⟩ (by decide)

theorem lastP_map {α β} (p : β → Bool) (f : α → β) (l : List α) :
    lastP p (l.map f) = lastP (fun a => p (f a)) l := by
  unfold lastP
  rw [List.getLast?_map]
  cases l.getLast? <;> rfl

theorem finalizePre_ok_of (st : PreSt) (h1 : ¬st.comment = CommentState.Block)
    (h2 : lastP (fun x => notSpace x.c) st.out = true) :
    finalizePre st = Except.ok st.out := by
  unfold finalizePre
  rw [if_neg h1]
  congr 1
  cases hgl : st.out.getLast? with
  | none => rfl
  | some pc =>
      have hp := lastP_some h2 hgl
      show (if pc.c = ' ' then st.out.dropLast else st.out) = st.out
      rw [if_neg (by simpa [notSpace] using hp)]

/-- C8 counterexample: the claim says the successful output of `preprocess`
on a comment-free input is a fixed point of `preprocess`.  The input
`"a\nb"` has no comment-opening sequence, yet re-running `preprocess` on the
character sequence of its output changes the recorded positions (the
newline collapsed into a space, so the second run sees a one-line input):
the output is not a fixed point. -/
theorem preprocess_not_idempotent :
    pairsOK openRel "a\nb".data = true ∧
    preprocess "a\nb" =
      Except.ok [⟨'a', 1, 1⟩, ⟨' ', 1, 2⟩, ⟨'b', 2, 1⟩] ∧
    preprocessChars
        (([⟨'a', 1, 1⟩, ⟨' ', 1, 2⟩, ⟨'b', 2, 1⟩] : List PositionedChar).map
          (fun x => x.c)) =
      Except.ok [⟨'a', 1, 1⟩, ⟨' ', 1, 2⟩, ⟨'b', 1, 3⟩] ∧
    ([⟨'a', 1, 1⟩, ⟨' ', 1, 2⟩, ⟨'b', 1, 3⟩] : List PositionedChar) ≠
      [⟨'a', 1, 1⟩, ⟨' ', 1, 2⟩, ⟨'b', 2, 1⟩] := by
  refine ⟨by decide, by decide, by decide, by decide⟩

/-- C8 (amended): for an input with no comment-opening sequence, the
character sequence of a successful output whose last character is not a
slash is a fixed point of `preprocess` at the character level: re-running
the preprocessor on it succeeds and re-emits exactly the same characters
(positions, however, are recomputed and may differ, as the counterexample
shows). -/
theorem preprocess_char_idempotent (source : String) (out : List PositionedChar)
    (_hopen : pairsOK openRel source.data = true)
    (hok : preprocess source = Except.ok out)
    (hslash : lastP (fun x => notSlash x.c) out = true) :
    ∃ out2, preprocessChars (out.map (fun x => x.c)) = Except.ok out2 ∧
      out2.map (fun x => x.c) = out.map (fun x => x.c) := by
  obtain ⟨p1, p2, p3, p4, p5⟩ := preprocess_ok_props hok
  have hnl : (out.map (fun x => x.c)).all notNl = true := by
    simpa [List.all_map, Function.comp] using p4
  have hspl : pairsOK spaceRel (out.map (fun x => x.c)) = true := by
    rw [pairsOK_map]; exact p1
  have hopl : pairsOK openRel (out.map (fun x => x.c)) = true := by
    rw [pairsOK_map]; exact p5
  obtain ⟨r1, r2⟩ := rerun (out.map (fun x => x.c)) [] 1 1 true
    (fun _ => by rw [headP_map]; exact p2) hnl hspl hopl
  have hls : lastP notSlash (out.map (fun x => x.c)) = true := by
    rw [lastP_map]; exact hslash
  have hdts : dropTrailSlash (out.map (fun x => x.c)) = out.map (fun x => x.c) := by
    have hne : ¬(out.map (fun x => x.c)).getLast? = some '/' := fun hcon => by
      simpa [notSlash] using lastP_some hls hcon
    unfold dropTrailSlash
    rw [if_neg hne]
  have hfo :
      ((out.map (fun x => x.c)).foldl prestep
        ⟨[], 1, 1, true, CommentState.None⟩).out.map (fun x => x.c) =
        out.map (fun x => x.c) := by
    rw [r1, hdts]
    simp
  have hlastF : lastP (fun x => notSpace x.c)
      ((out.map (fun x => x.c)).foldl prestep
        ⟨[], 1, 1, true, CommentState.None⟩).out = true := by
    have := lastP_map notSpace (fun x : PositionedChar => x.c)
      ((out.map (fun x => x.c)).foldl prestep
        ⟨[], 1, 1, true, CommentState.None⟩).out
    rw [← this, hfo, lastP_map]
    exact p3
  have hcomment : ¬((out.map (fun x => x.c)).foldl prestep
      ⟨[], 1, 1, true, CommentState.None⟩).comment = CommentState.Block := by
    rcases r2 with h | ⟨q, h⟩ <;> rw [h] <;> simp
  refine ⟨_, ?_, hfo⟩
  unfold preprocessChars
  exact finalizePre_ok_of _ hcomment hlastF

/-- C8 witness: the source `"a b"`. -/
theorem preprocess_char_idempotent_witness :
    ∃ out2, preprocessChars
        (([⟨'a', 1, 1⟩, ⟨' ', 1, 2⟩, ⟨'b', 1, 3⟩] : List PositionedChar).map
          (fun x => x.c)) = Except.ok out2 ∧
      out2.map (fun x => x.c) =
        ([⟨'a', 1, 1⟩, ⟨' ', 1, 2⟩, ⟨'b', 1, 3⟩] : List PositionedChar).map
          (fun x => x.c) :=
  preprocess_char_idempotent "a b" [⟨'a', 1, 1⟩, ⟨' ', 1, 2⟩, ⟨'b', 1, 3⟩]
    (by decide) (by decide) (by decide)

end Comp
